import Mathlib

/-!
Shallow embedding of the text-annotation core of the quora-clone client:
the segment tokenizer (src/utils/textUtils.ts), the markdown renderer's
per-element text handling, the editor's undo/redo history and heading
toolbar action (the MarkdownEditor component), and the mention dropdown's
viewport clamping (src/components/MentionDropdown.tsx).

Strings are modelled as `List Char`.  The JavaScript regexes are modelled
by explicit character scans following the engine's leftmost-match,
alternative-in-order semantics.
-/

set_option autoImplicit false

namespace QuoraClone

/-- A JavaScript string is modelled as a list of characters. -/
abbrev Str := List Char

/-- JavaScript word character, the regex class `\w` = `[A-Za-z0-9_]`. -/
def isWordChar (c : Char) : Bool :=
  c.isAlpha || c.isDigit || c == '_'

/-- JavaScript whitespace, the regex class `\s` (space, tab, line and page
breaks, and the Unicode space separators recognised by the engine). -/
def isSpaceJS (c : Char) : Bool :=
  c == ' ' || c == '\t' || c == '\n' || c == '\r' ||
  c.toNat == 0x0b || c.toNat == 0x0c || c.toNat == 0xa0 || c.toNat == 0x1680 ||
  (decide (0x2000 ≤ c.toNat) && decide (c.toNat ≤ 0x200a)) ||
  c.toNat == 0x2028 || c.toNat == 0x2029 || c.toNat == 0x202f ||
  c.toNat == 0x205f || c.toNat == 0x3000 || c.toNat == 0xfeff

/-- The `User` record of src/utils/textUtils.ts. -/
structure User where
  uid : Str
  username : Str
  displayName : Option Str
deriving DecidableEq

/-- Segment kinds of the `ParsedSegment` interface. -/
inductive SegType where
  | text
  | hashtag
  | mention
deriving DecidableEq

/-- The `ParsedSegment` interface: `isValid` is optional (absent on `text`). -/
structure ParsedSegment where
  type : SegType
  content : Str
  isValid : Option Bool
deriving DecidableEq

/-- ASCII model of JavaScript `toLowerCase` (token names are `\w` characters,
so only ASCII case folding is relevant to the comparison). -/
def toLowerStr (s : Str) : Str := s.map Char.toLower

/-- The mention-validity test of the tokenizer:
`availableUsers.some(u => u.username && u.username.toLowerCase() === username.toLowerCase())`
(a JS empty string is falsy, hence the `isEmpty` guard). -/
def userExists (availableUsers : List User) (username : Str) : Bool :=
  availableUsers.any fun user =>
    !user.username.isEmpty && (toLowerStr user.username == toLowerStr username)

/-- Split off the longest leading run of word characters (the `\w+` capture,
greedy). -/
def wordRun : Str → Str × Str
  | [] => ([], [])
  | c :: cs =>
    if isWordChar c then
      let p := wordRun cs
      (c :: p.1, p.2)
    else ([], c :: cs)

/-- One attempt of the tokenizer regex `(?:^|\s)(#\w+)|(?:^|\s)(@\w+)` at a
fixed start position.  `pos0` records whether the position is input index 0
(the only place the `^` alternative can match, the regex having no `m` flag).
On success the result carries the consumed boundary character (when the `\s`
branch matched), the token kind, the captured word run and the remaining
input after the token. -/
def tryAt (pos0 : Bool) (cs : Str) : Option (Option Char × SegType × Str × Str) :=
  match cs with
  | '#' :: rest =>
    if pos0 then
      if (wordRun rest).1.isEmpty then none
      else some (none, SegType.hashtag, (wordRun rest).1, (wordRun rest).2)
    else none
  | '@' :: rest =>
    if pos0 then
      if (wordRun rest).1.isEmpty then none
      else some (none, SegType.mention, (wordRun rest).1, (wordRun rest).2)
    else none
  | c :: '#' :: rest =>
    if isSpaceJS c then
      if (wordRun rest).1.isEmpty then none
      else some (some c, SegType.hashtag, (wordRun rest).1, (wordRun rest).2)
    else none
  | c :: '@' :: rest =>
    if isSpaceJS c then
      if (wordRun rest).1.isEmpty then none
      else some (some c, SegType.mention, (wordRun rest).1, (wordRun rest).2)
    else none
  | _ => none

/-- Emit a pending run of plain characters as a `text` segment (nothing when
the run is empty, mirroring the `actualStart > lastIndex` guards). -/
def emitText (pending : Str) : List ParsedSegment :=
  if pending.isEmpty then [] else [⟨SegType.text, pending, none⟩]

/-- Build the segment for a matched token: hashtags are always valid,
mentions are validated against the user list. -/
def mkSeg (availableUsers : List User) (k : SegType) (name : Str) : ParsedSegment :=
  match k with
  | SegType.mention => ⟨SegType.mention, name, some (userExists availableUsers name)⟩
  | _ => ⟨k, name, some true⟩

/-- The scanning loop of `parseTextWithTagsAndMentions`.  `fuel` bounds the
number of remaining scan positions (the caller passes the input length, which
always suffices since every step consumes at least one character), `pos0` is
true exactly at input position 0, and `pending` holds the characters scanned
past without a match (the JS `text.slice(lastIndex, actualStart)` slice,
which includes the boundary whitespace consumed by a match). -/
def parseAux (availableUsers : List User) : Nat → Bool → Str → Str → List ParsedSegment
  | _, _, pending, [] => emitText pending
  | 0, _, pending, cs => emitText (pending ++ cs)
  | fuel + 1, pos0, pending, c :: cs =>
    match tryAt pos0 (c :: cs) with
    | some (b, k, n, rest) =>
      emitText (pending ++ b.toList) ++
        mkSeg availableUsers k n :: parseAux availableUsers fuel false [] rest
    | none => parseAux availableUsers fuel false (pending ++ [c]) cs

/-- Model of `parseTextWithTagsAndMentions` (src/utils/textUtils.ts, lines
18-73).  The `if (!text) return []` guard is subsumed: on `[]` the scan
emits nothing. -/
def parseTextWithTagsAndMentions (text : Str) (availableUsers : List User) :
    List ParsedSegment :=
  parseAux availableUsers text.length true [] text

/-- Reinsert the original `#`/`@` marker in front of a segment's content. -/
def encodeSeg (s : ParsedSegment) : Str :=
  match s.type with
  | SegType.text => s.content
  | SegType.hashtag => '#' :: s.content
  | SegType.mention => '@' :: s.content

/-- Concatenation of segment contents with original markers reinserted. -/
def reconstruct (l : List ParsedSegment) : Str :=
  match l with
  | [] => []
  | s :: rest => encodeSeg s ++ reconstruct rest

/-- Decides whether the tokenizer regex matches anywhere in the input
(scanning every start position, as `exec` does). -/
def hasTokenAux (pos0 : Bool) (cs : Str) : Bool :=
  match cs with
  | [] => false
  | c :: rest => (tryAt pos0 (c :: rest)).isSome || hasTokenAux false rest

/-- The marker character a token kind reinserts (unused for `text`). -/
def markerChar : SegType → Char
  | SegType.text => ' '
  | SegType.hashtag => '#'
  | SegType.mention => '@'

/-- Undo/redo state of the MarkdownEditor component: the snapshot stack and
the cursor into it (`useState<string[]>([value])`, `useState(0)`). -/
structure EditorHistory where
  history : List Str
  historyIndex : Nat
deriving DecidableEq

/-- The editor's initial history state: one entry, index 0. -/
def initialHistory (value : Str) : EditorHistory := ⟨[value], 0⟩

/-- The debounced history effect of the MarkdownEditor (fires after 500ms of
inactivity): if the buffer differs from the entry at the current index, the
forward entries are truncated, the buffer is appended, and on overflow past
100 entries the oldest entry is shifted off the front (leaving the index in
place); otherwise the index advances onto the new entry. -/
def pushSnapshot (st : EditorHistory) (value : Str) : EditorHistory :=
  if st.history[st.historyIndex]? = some value then st
  else
    let newHistory := st.history.take (st.historyIndex + 1) ++ [value]
    if 100 < newHistory.length then
      { history := newHistory.drop 1, historyIndex := st.historyIndex }
    else
      { history := newHistory, historyIndex := st.historyIndex + 1 }

/-- `undo` of the MarkdownEditor: when `historyIndex > 0`, steps the index
back and invokes `onChange` with the snapshot at the new index.  The second
component is the argument passed to `onChange` (`none` when `onChange` is
not invoked). -/
def undo (st : EditorHistory) : EditorHistory × Option Str :=
  if 0 < st.historyIndex then
    ({ history := st.history, historyIndex := st.historyIndex - 1 },
      some (st.history.getD (st.historyIndex - 1) []))
  else (st, none)

/-- `redo` of the MarkdownEditor: when `historyIndex < history.length - 1`,
steps the index forward and invokes `onChange` with the snapshot there. -/
def redo (st : EditorHistory) : EditorHistory × Option Str :=
  if st.historyIndex < st.history.length - 1 then
    ({ history := st.history, historyIndex := st.historyIndex + 1 },
      some (st.history.getD (st.historyIndex + 1) []))
  else (st, none)

/-- A sequence of debounced snapshot appends. -/
def pushList (st : EditorHistory) (vs : List Str) : EditorHistory :=
  vs.foldl pushSnapshot st

/-- Checks that every value in the sequence differs from the entry at the
current `historyIndex` at the moment it is pushed (so each effect firing
actually appends). -/
def freshAlong (st : EditorHistory) : List Str → Bool
  | [] => true
  | v :: vs =>
    if st.history[st.historyIndex]? = some v then false
    else freshAlong (pushSnapshot st v) vs

/-- Start index of the line containing the cursor:
`value.substring(0, startPos).lastIndexOf('\n') + 1`. -/
def jsLineStart (before : Str) : Nat :=
  before.length - (before.reverse.takeWhile (fun c => c != '\n')).length

/-- The `/^(#+)\s*/` match of `handleHeading`, applied to the part of the
current line before the cursor: returns the number of captured hashes and
the length of the full match (hashes plus trailing whitespace). -/
def headingMatch (lbs : Str) : Option (Nat × Nat) :=
  if (lbs.takeWhile (fun c => c == '#')).isEmpty then none
  else some ((lbs.takeWhile (fun c => c == '#')).length,
    (lbs.takeWhile (fun c => c == '#')).length +
      ((lbs.drop (lbs.takeWhile (fun c => c == '#')).length).takeWhile isSpaceJS).length)

/-- The branches of `handleHeading`, dispatching on the result of the
`/^(#+)\s*/` match (`lineStartIndex` is passed precomputed): below level 6
one hash is added and the separator normalised to a single space; at level 6
the whole matched prefix is removed; with no match, a non-empty selection is
wrapped as a level-1 heading, an empty one gets the `# Heading` template
inserted at the line start. -/
def headingApply (value : Str) (startPos endPos lineStartIndex : Nat) :
    Option (Nat × Nat) → Str × Nat × Nat
  | some (nHashes, matchLen) =>
    if nHashes < 6 then
      (value.take lineStartIndex ++ (List.replicate (nHashes + 1) '#' ++ [' ']) ++
        value.drop (lineStartIndex + matchLen),
        startPos + 1, endPos + 1)
    else
      (value.take lineStartIndex ++ value.drop (lineStartIndex + matchLen),
        max lineStartIndex (startPos - matchLen), max lineStartIndex (endPos - matchLen))
  | none =>
    if ((value.take endPos).drop startPos).isEmpty then
      (value.take lineStartIndex ++ ('#' :: ' ' :: "Heading".data) ++
        value.drop lineStartIndex,
        lineStartIndex + 2, lineStartIndex + ('#' :: ' ' :: "Heading".data).length)
    else
      (value.take lineStartIndex ++ ('#' :: [' ']) ++
        ((value.take startPos).drop lineStartIndex) ++ ((value.take endPos).drop startPos) ++
        value.drop endPos,
        startPos + 2, endPos + 2)

/-- `handleHeading` of the MarkdownEditor: finds the start of the current
line, matches its leading hashes before the cursor, and dispatches.  Returns
the new buffer and the new selection range. -/
def handleHeading (value : Str) (startPos endPos : Nat) : Str × Nat × Nat :=
  headingApply value startPos endPos (jsLineStart (value.take startPos))
    (headingMatch ((value.take startPos).drop (jsLineStart (value.take startPos))))

/-- One heading-toolbar invocation on a buffer together with its selection
range (the editor re-applies the returned selection before the next one). -/
def headingStep (s : Str × Nat × Nat) : Str × Nat × Nat :=
  handleHeading s.1 s.2.1 s.2.2

/-- `k` consecutive heading invocations starting from a blank buffer with
the cursor at position 0. -/
def headingCycle : Nat → Str × Nat × Nat
  | 0 => ([], 0, 0)
  | k + 1 => headingStep (headingCycle k)

/-- Length of the leading run of hash marks of a line. -/
def hashRunLen (l : Str) : Nat := (l.takeWhile (fun c => c == '#')).length

/-- `getAdjustedPosition` of MentionDropdown.tsx: clamps the dropdown anchor
inside the viewport (right edge, then left edge, for the horizontal
coordinate; bottom edge with a flip above the cursor, then top edge, for the
vertical one).  Returns `(top, left)`. -/
def getAdjustedPosition (top left innerWidth innerHeight : Int) : Int × Int :=
  let dropdownWidth : Int := 300
  let dropdownHeight : Int := 200
  let padding : Int := 10
  let left1 := if innerWidth - padding < left + dropdownWidth
    then innerWidth - dropdownWidth - padding else left
  let left2 := if left1 < padding then padding else left1
  let top1 := if innerHeight - padding < top + dropdownHeight
    then top - dropdownHeight - 30 else top
  let top2 := if top1 < padding then padding else top1
  (top2, left2)

/-- Rendered output nodes produced for a string leaf by the MarkdownRenderer
components. -/
inductive RNode where
  | raw (s : Str)
  | hashtagLink (tag : Str)
  | mentionLink (username : Str)
  | mentionInert (username : Str)
deriving DecidableEq

/-- How the TextRenderer renders one segment: hashtags as clickable spans,
valid mentions as clickable spans, invalid mentions as inert gray spans,
text verbatim. -/
def renderSegment (seg : ParsedSegment) : RNode :=
  match seg.type with
  | SegType.hashtag => RNode.hashtagLink seg.content
  | SegType.mention =>
    if seg.isValid = some true then RNode.mentionLink seg.content
    else RNode.mentionInert seg.content
  | SegType.text => RNode.raw seg.content

/-- The TextRenderer component: tokenizes its string child and renders the
segments. -/
def textRenderer (children : Str) (availableUsers : List User) : List RNode :=
  (parseTextWithTagsAndMentions children availableUsers).map renderSegment

/-- Element kinds of the MarkdownRenderer components map that can receive
string children. -/
inductive ElemKind where
  | p | h1 | h2 | h3 | h4 | h5 | h6 | li | blockquote | em | strong | del | th | td
deriving DecidableEq

/-- How each element handler of the MarkdownRenderer treats a string child:
`p`, `h1`-`h6`, `li`, `blockquote`, `em`, `strong` and `del` map string
children through the TextRenderer (the React.Children.map with a
typeof-string test in each handler), while `th` and `td` emit their children
verbatim.  The components map also registers a `text` entry, but the
markdown library's `components` prop maps element tags only, so a text leaf
reaches its enclosing element's handler as a plain string — which is exactly
why each element handler re-applies the TextRenderer itself. -/
def renderStringChild (k : ElemKind) (child : Str) (availableUsers : List User) :
    List RNode :=
  match k with
  | ElemKind.th => [RNode.raw child]
  | ElemKind.td => [RNode.raw child]
  | _ => textRenderer child availableUsers

theorem wordRun_append : ∀ cs : Str, (wordRun cs).1 ++ (wordRun cs).2 = cs
  | [] => rfl
  | c :: cs => by
    cases hw : isWordChar c with
    | true => simp [wordRun, hw, wordRun_append cs]
    | false => simp [wordRun, hw]

theorem wordRun_word : ∀ (cs : Str) (c : Char), c ∈ (wordRun cs).1 → isWordChar c = true
  | [], c, h => by simp [wordRun] at h
  | d :: cs, c, h => by
    cases hw : isWordChar d with
    | true =>
      simp only [wordRun, hw, if_true] at h
      rcases List.mem_cons.mp h with h | h
      · exact h ▸ hw
      · exact wordRun_word cs c h
    | false => simp [wordRun, hw] at h

theorem tryAt_spec {pos0 : Bool} {cs : Str} {b : Option Char} {k : SegType} {n rest : Str}
    (h : tryAt pos0 cs = some (b, k, n, rest)) :
    cs = b.toList ++ markerChar k :: (n ++ rest) ∧
    n ≠ [] ∧ (∀ c ∈ n, isWordChar c = true) ∧ k ≠ SegType.text ∧
    (b = none → pos0 = true) ∧
    (∀ c : Char, b = some c → isSpaceJS c = true) := by
  unfold tryAt at h
  split at h
  · split at h
    · split at h
      · exact absurd h (by simp)
      · rename_i hp hrun
        simp only [Option.some.injEq, Prod.mk.injEq] at h
        obtain ⟨hb, hk, hn, hr⟩ := h
        subst hb; subst hk; subst hn; subst hr
        exact ⟨by simp [markerChar, wordRun_append], by simpa using hrun,
          fun c hc => wordRun_word _ c hc, by simp, fun _ => hp, by simp⟩
    · exact absurd h (by simp)
  · split at h
    · split at h
      · exact absurd h (by simp)
      · rename_i hp hrun
        simp only [Option.some.injEq, Prod.mk.injEq] at h
        obtain ⟨hb, hk, hn, hr⟩ := h
        subst hb; subst hk; subst hn; subst hr
        exact ⟨by simp [markerChar, wordRun_append], by simpa using hrun,
          fun c hc => wordRun_word _ c hc, by simp, fun _ => hp, by simp⟩
    · exact absurd h (by simp)
  · split at h
    · split at h
      · exact absurd h (by simp)
      · rename_i hsp hrun
        simp only [Option.some.injEq, Prod.mk.injEq] at h
        obtain ⟨hb, hk, hn, hr⟩ := h
        subst hb; subst hk; subst hn; subst hr
        exact ⟨by simp [markerChar, wordRun_append], by simpa using hrun,
          fun c hc => wordRun_word _ c hc, by simp, by simp,
          fun c hc => (Option.some.inj hc) ▸ hsp⟩
    · exact absurd h (by simp)
  · split at h
    · split at h
      · exact absurd h (by simp)
      · rename_i hsp hrun
        simp only [Option.some.injEq, Prod.mk.injEq] at h
        obtain ⟨hb, hk, hn, hr⟩ := h
        subst hb; subst hk; subst hn; subst hr
        exact ⟨by simp [markerChar, wordRun_append], by simpa using hrun,
          fun c hc => wordRun_word _ c hc, by simp, by simp,
          fun c hc => (Option.some.inj hc) ▸ hsp⟩
    · exact absurd h (by simp)
  · exact absurd h (by simp)

theorem tryAt_rest_length {pos0 : Bool} {cs : Str} {b : Option Char} {k : SegType}
    {n rest : Str} (h : tryAt pos0 cs = some (b, k, n, rest)) :
    rest.length < cs.length := by
  obtain ⟨heq, hn, -, -, -, -⟩ := tryAt_spec h
  have : cs.length = b.toList.length + (1 + (n.length + rest.length)) := by
    simp [heq]
    omega
  have hn1 : 1 ≤ n.length := by
    cases n with
    | nil => exact absurd rfl hn
    | cons _ _ => simp
  omega

theorem reconstruct_append (l₁ l₂ : List ParsedSegment) :
    reconstruct (l₁ ++ l₂) = reconstruct l₁ ++ reconstruct l₂ := by
  induction l₁ with
  | nil => simp [reconstruct]
  | cons s rest ih => simp [reconstruct, ih]

theorem reconstruct_emitText (p : Str) : reconstruct (emitText p) = p := by
  by_cases h : p = []
  · simp [emitText, h, reconstruct]
  · simp [emitText, h, reconstruct, encodeSeg]

theorem mem_emitText {p : Str} {seg : ParsedSegment} (h : seg ∈ emitText p) :
    seg = ⟨SegType.text, p, none⟩ ∧ p ≠ [] := by
  by_cases hp : p = []
  · simp [emitText, hp] at h
  · simp [emitText, hp] at h
    exact ⟨h, hp⟩

theorem mkSeg_eta (users : List User) {k : SegType} (n : Str) (hk : k ≠ SegType.text) :
    (mkSeg users k n).type = k ∧ (mkSeg users k n).content = n ∧
      encodeSeg (mkSeg users k n) = markerChar k :: n := by
  cases k with
  | text => exact absurd rfl hk
  | hashtag => exact ⟨rfl, rfl, rfl⟩
  | mention => exact ⟨rfl, rfl, rfl⟩

theorem mkSeg_isValid (users : List User) {k : SegType} (n : Str) (hk : k ≠ SegType.text) :
    (mkSeg users k n).isValid =
      some (if k = SegType.mention then userExists users n else true) := by
  cases k with
  | text => exact absurd rfl hk
  | hashtag => rfl
  | mention => rfl

/-- Round-trip invariant of the scanning loop: re-inserting the markers and
concatenating restores the pending prefix followed by the unscanned input. -/
theorem reconstruct_parseAux (users : List User) :
    ∀ (fuel : Nat) (pos0 : Bool) (pending cs : Str), cs.length ≤ fuel →
      reconstruct (parseAux users fuel pos0 pending cs) = pending ++ cs := by
  intro fuel
  induction fuel with
  | zero =>
    intro pos0 pending cs hlen
    have : cs = [] := List.length_eq_zero.mp (Nat.le_zero.mp hlen)
    subst this
    simp [parseAux, reconstruct_emitText]
  | succ fuel ih =>
    intro pos0 pending cs hlen
    cases cs with
    | nil => simp [parseAux, reconstruct_emitText]
    | cons c cs =>
      rw [parseAux]
      cases htry : tryAt pos0 (c :: cs) with
      | none =>
        rw [ih false (pending ++ [c]) cs (by simpa using Nat.lt_succ_iff.mp hlen)]
        simp
      | some r =>
        obtain ⟨b, k, n, rest⟩ := r
        obtain ⟨heq, -, -, hk, -, -⟩ := tryAt_spec htry
        have hrest : rest.length ≤ fuel := by
          have := tryAt_rest_length htry
          simp only [List.length_cons] at this hlen
          omega
        simp only [reconstruct_append, reconstruct_emitText, reconstruct,
          (mkSeg_eta users n hk).2.2, ih false [] rest hrest]
        rw [heq]
        simp

/-- Per-segment invariants of the scanning loop: `text` segments carry no
validity flag and are non-empty, hashtags are always valid, mentions carry
exactly the user-lookup result, and token contents are non-empty word runs. -/
theorem parseAux_segs (users : List User) :
    ∀ (fuel : Nat) (pos0 : Bool) (pending cs : Str),
      ∀ seg ∈ parseAux users fuel pos0 pending cs,
        (seg.type = SegType.text → seg.isValid = none) ∧
        (seg.type = SegType.hashtag → seg.isValid = some true) ∧
        (seg.type = SegType.mention → seg.isValid = some (userExists users seg.content)) ∧
        seg.content ≠ [] ∧
        (seg.type ≠ SegType.text → ∀ c ∈ seg.content, isWordChar c = true) := by
  intro fuel
  induction fuel with
  | zero =>
    intro pos0 pending cs seg hseg
    cases cs with
    | nil =>
      obtain ⟨hs, hp⟩ := mem_emitText (by simpa [parseAux] using hseg)
      subst hs
      exact ⟨fun _ => rfl, by simp, by simp, hp, by simp⟩
    | cons c cs =>
      obtain ⟨hs, hp⟩ := mem_emitText (by simpa [parseAux] using hseg)
      subst hs
      exact ⟨fun _ => rfl, by simp, by simp, hp, by simp⟩
  | succ fuel ih =>
    intro pos0 pending cs seg hseg
    cases cs with
    | nil =>
      obtain ⟨hs, hp⟩ := mem_emitText (by simpa [parseAux] using hseg)
      subst hs
      exact ⟨fun _ => rfl, by simp, by simp, hp, by simp⟩
    | cons c cs =>
      rw [parseAux] at hseg
      cases htry : tryAt pos0 (c :: cs) with
      | none =>
        rw [htry] at hseg
        exact ih false (pending ++ [c]) cs seg hseg
      | some r =>
        obtain ⟨b, k, n, rest⟩ := r
        rw [htry] at hseg
        obtain ⟨-, hn, hw, hk, -, -⟩ := tryAt_spec htry
        rcases List.mem_append.mp hseg with hseg | hseg
        · obtain ⟨hs, hp⟩ := mem_emitText hseg
          subst hs
          exact ⟨fun _ => rfl, by simp, by simp, hp, by simp⟩
        · rcases List.mem_cons.mp hseg with hseg | hseg
          · subst hseg
            obtain ⟨ht, hc, -⟩ := mkSeg_eta users n hk
            refine ⟨fun hx => absurd (ht ▸ hx) hk, fun hx => ?_, fun hx => ?_,
              by rw [hc]; exact hn, fun _ => by rw [hc]; exact hw⟩
            · rw [mkSeg_isValid users n hk, if_neg]
              rw [ht] at hx
              subst hx
              simp
            · rw [mkSeg_isValid users n hk, if_pos (ht ▸ hx), hc]
          · exact ih false [] rest seg hseg

/-- Every hashtag/mention segment the scan emits corresponds to an occurrence
of its marker character that is either at the very start of the input or
immediately preceded by a whitespace character. -/
theorem parseAux_boundary (users : List User) :
    ∀ (fuel : Nat) (pos0 : Bool) (pending cs : Str),
      (pos0 = true → pending = []) →
      ∀ seg ∈ parseAux users fuel pos0 pending cs, seg.type ≠ SegType.text →
        ∃ pre suf : Str,
          pending ++ cs = pre ++ markerChar seg.type :: (seg.content ++ suf) ∧
          ((pre = [] ∧ pos0 = true) ∨
            ∃ (pre2 : Str) (c : Char), pre = pre2 ++ [c] ∧ isSpaceJS c = true) := by
  intro fuel
  induction fuel with
  | zero =>
    intro pos0 pending cs hpe seg hseg hty
    cases cs with
    | nil => exact absurd (congrArg ParsedSegment.type
        (mem_emitText (by simpa [parseAux] using hseg)).1) hty
    | cons c cs => exact absurd (congrArg ParsedSegment.type
        (mem_emitText (by simpa [parseAux] using hseg)).1) hty
  | succ fuel ih =>
    intro pos0 pending cs hpe seg hseg hty
    cases cs with
    | nil => exact absurd (congrArg ParsedSegment.type
        (mem_emitText (by simpa [parseAux] using hseg)).1) hty
    | cons c cs =>
      rw [parseAux] at hseg
      cases htry : tryAt pos0 (c :: cs) with
      | none =>
        rw [htry] at hseg
        obtain ⟨pre, suf, heq, hdis⟩ :=
          ih false (pending ++ [c]) cs (by simp) seg hseg hty
        refine ⟨pre, suf, by simpa using heq, ?_⟩
        rcases hdis with ⟨-, hfalse⟩ | hdis
        · exact absurd hfalse (by simp)
        · exact Or.inr hdis
      | some r =>
        obtain ⟨b, k, n, rest⟩ := r
        rw [htry] at hseg
        obtain ⟨heq, -, -, hk, hb0, hbs⟩ := tryAt_spec htry
        rcases List.mem_append.mp hseg with hseg | hseg
        · exact absurd (congrArg ParsedSegment.type (mem_emitText hseg).1) hty
        · rcases List.mem_cons.mp hseg with hseg | hseg
          · subst hseg
            obtain ⟨ht, hc, -⟩ := mkSeg_eta users n hk
            refine ⟨pending ++ b.toList, rest, ?_, ?_⟩
            · rw [ht, hc, heq]
              simp
            · cases b with
              | none =>
                have hp0 : pos0 = true := hb0 rfl
                exact Or.inl ⟨by simp [hpe hp0], hp0⟩
              | some c0 =>
                exact Or.inr ⟨pending, c0, rfl, hbs c0 rfl⟩
          · obtain ⟨pre, suf, heq2, hdis⟩ := ih false [] rest (by simp) seg hseg hty
            simp only [List.nil_append] at heq2
            rcases hdis with ⟨-, hfalse⟩ | ⟨pre2, c0, hpre, hsp⟩
            · exact absurd hfalse (by simp)
            · refine ⟨pending ++ b.toList ++ markerChar k :: n ++ pre2 ++ [c0], suf, ?_, ?_⟩
              · rw [heq, heq2, hpre]
                simp
              · exact Or.inr ⟨pending ++ b.toList ++ markerChar k :: n ++ pre2, c0,
                  by simp, hsp⟩

/-- When the tokenizer regex matches nowhere, the scan returns the whole
input as a single pending run. -/
theorem parseAux_noToken (users : List User) :
    ∀ (fuel : Nat) (pos0 : Bool) (pending cs : Str),
      hasTokenAux pos0 cs = false →
      parseAux users fuel pos0 pending cs = emitText (pending ++ cs) := by
  intro fuel
  induction fuel with
  | zero =>
    intro pos0 pending cs h
    cases cs with
    | nil => simp [parseAux]
    | cons c cs => rfl
  | succ fuel ih =>
    intro pos0 pending cs h
    cases cs with
    | nil => simp [parseAux]
    | cons c cs =>
      rw [hasTokenAux] at h
      simp only [Bool.or_eq_false_iff] at h
      rw [parseAux]
      cases htry : tryAt pos0 (c :: cs) with
      | none =>
        rw [ih false (pending ++ [c]) cs h.2]
        simp
      | some r => simp [htry] at h


/-- Every segment's content occurs contiguously inside the reconstruction of
the segment list. -/
theorem mem_reconstruct :
    ∀ (l : List ParsedSegment) (seg : ParsedSegment), seg ∈ l →
      ∃ s t : Str, s ++ (seg.content ++ t) = reconstruct l := by
  intro l
  induction l with
  | nil => intro seg h; simp at h
  | cons x rest ih =>
    intro seg h
    rcases List.mem_cons.mp h with h | h
    · subst h
      cases hx : seg.type with
      | text => exact ⟨[], reconstruct rest, by simp [reconstruct, encodeSeg, hx]⟩
      | hashtag => exact ⟨['#'], reconstruct rest, by simp [reconstruct, encodeSeg, hx]⟩
      | mention => exact ⟨['@'], reconstruct rest, by simp [reconstruct, encodeSeg, hx]⟩
    · obtain ⟨s, t, hst⟩ := ih seg h
      exact ⟨encodeSeg x ++ s, t, by simp [reconstruct, ← hst]⟩

/-- Top-level round trip, shared by several claims. -/
theorem reconstruct_parse (s : Str) (U : List User) :
    reconstruct (parseTextWithTagsAndMentions s U) = s := by
  simpa using reconstruct_parseAux U s.length true [] s le_rfl

/-- For a non-empty candidate name, the tokenizer's user lookup is exactly
case-insensitive username equality (the JS truthiness guard on
`user.username` is subsumed: an empty username never equals a non-empty
name, case-folded or not). -/
theorem userExists_iff {U : List User} {n : Str} (hn : n ≠ []) :
    userExists U n = true ↔ ∃ u ∈ U, toLowerStr u.username = toLowerStr n := by
  unfold userExists
  rw [List.any_eq_true]
  constructor
  · rintro ⟨u, hu, hcond⟩
    simp only [Bool.and_eq_true, beq_iff_eq] at hcond
    exact ⟨u, hu, hcond.2⟩
  · rintro ⟨u, hu, heq⟩
    refine ⟨u, hu, ?_⟩
    have husr : u.username ≠ [] := by
      intro h0
      rw [h0] at heq
      cases n with
      | nil => exact hn rfl
      | cons a l => simp [toLowerStr] at heq
    simp only [Bool.and_eq_true, beq_iff_eq]
    exact ⟨by simp [husr], heq⟩

theorem takeWhile_append_all {α : Type} (p : α → Bool) (l₁ l₂ : List α)
    (h : l₁.all p = true) : (l₁ ++ l₂).takeWhile p = l₁ ++ l₂.takeWhile p := by
  induction l₁ with
  | nil => simp
  | cons a l ih =>
    simp only [List.all_cons, Bool.and_eq_true] at h
    simp [List.takeWhile_cons, h.1, ih h.2]

theorem takeWhile_append_stop {α : Type} (p : α → Bool) (l u : List α)
    (hl : l.all p = true) (hu : ∀ d, u.head? = some d → p d = false) :
    (l ++ u).takeWhile p = l := by
  rw [takeWhile_append_all p l u hl]
  cases u with
  | nil => simp
  | cons d u2 => simp [List.takeWhile_cons, hu d rfl]

/-- The line-start computation: with a prefix that is empty or ends in a
newline, followed by newline-free text, the line starts right after the
prefix. -/
theorem jsLineStart_append (pre u : Str)
    (hpre : pre = [] ∨ ∃ p : Str, pre = p ++ ['\n'])
    (hu : u.all (fun c => c != '\n') = true) :
    jsLineStart (pre ++ u) = pre.length := by
  unfold jsLineStart
  rw [List.reverse_append]
  have hrev : u.reverse.all (fun c => c != '\n') = true := by simpa using hu
  rcases hpre with hpre | ⟨p, hpre⟩
  · subst hpre
    rw [takeWhile_append_all _ _ _ hrev]
    simp
  · subst hpre
    rw [takeWhile_append_stop _ _ _ hrev]
    · simp
      omega
    · intro d hd
      simp at hd
      subst hd
      simp

theorem freshAlong_take :
    ∀ (vs : List Str) (st : EditorHistory) (n : Nat),
      freshAlong st vs = true → freshAlong st (vs.take n) = true := by
  intro vs
  induction vs with
  | nil => intro st n _; simp [freshAlong]
  | cons v vs ih =>
    intro st n hf
    cases n with
    | zero => simp [freshAlong]
    | succ n =>
      rw [List.take_succ_cons]
      rw [freshAlong] at hf ⊢
      split at hf
      · exact absurd hf (by simp)
      · rename_i hget
        rw [if_neg hget]
        exact ih _ n hf

/-- Behaviour of a run of appending pushes: starting from a state whose
index sits on the last entry, the stack after the run is the suffix of
`old history ++ pushed values` that fits under the 100-entry cap, the index
stays on the last entry, and the length is capped at 100. -/
theorem pushList_window :
    ∀ (vs : List Str) (st : EditorHistory),
      st.history ≠ [] → st.historyIndex + 1 = st.history.length →
      st.history.length ≤ 100 → freshAlong st vs = true →
      (pushList st vs).history =
          (st.history ++ vs).drop (st.history.length + vs.length - 100) ∧
        (pushList st vs).historyIndex + 1 = (pushList st vs).history.length ∧
        (pushList st vs).history.length = min (st.history.length + vs.length) 100 := by
  intro vs
  induction vs with
  | nil =>
    intro st h1 h2 h3 _
    refine ⟨?_, h2, ?_⟩
    · have hz : st.history.length + List.length ([] : List Str) - 100 = 0 := by
        simp
        omega
      rw [hz]
      simp [pushList]
    · simp [pushList]
      omega
  | cons v vs ih =>
    intro st h1 h2 h3 hf
    rw [freshAlong] at hf
    split at hf
    · exact absurd hf (by simp)
    · rename_i hget
      have htake : st.history.take (st.historyIndex + 1) = st.history := by
        rw [h2]
        exact List.take_length st.history
      have hstep : pushList st (v :: vs) = pushList (pushSnapshot st v) vs := rfl
      rw [hstep]
      by_cases hcap : 100 < (st.history ++ [v]).length
      · have hlen100 : st.history.length = 100 := by
          simp at hcap
          omega
        have hH : (pushSnapshot st v).history = (st.history ++ [v]).drop 1 := by
          rw [pushSnapshot, if_neg hget, htake, if_pos hcap]
        have hI : (pushSnapshot st v).historyIndex = st.historyIndex := by
          rw [pushSnapshot, if_neg hget, htake, if_pos hcap]
        obtain ⟨ihh, ihi, ihl⟩ := ih (pushSnapshot st v)
          (by rw [hH, ← List.length_pos]; simp; omega)
          (by rw [hH, hI]; simp; omega)
          (by rw [hH]; simp; omega)
          hf
        refine ⟨?_, ihi, ?_⟩
        · rw [ihh, hH]
          have h1a : ((st.history ++ [v]).drop 1).length + vs.length - 100 = vs.length := by
            simp
            omega
          have h1b : st.history.length + (v :: vs).length - 100 = 1 + vs.length := by
            simp
            omega
          rw [h1a, h1b, ← List.drop_append_of_le_length (by simp), List.drop_drop]
          congr 1
          simp
        · rw [ihl, hH]
          simp
          omega
      · have hH : (pushSnapshot st v).history = st.history ++ [v] := by
          rw [pushSnapshot, if_neg hget, htake, if_neg hcap]
        have hI : (pushSnapshot st v).historyIndex = st.historyIndex + 1 := by
          rw [pushSnapshot, if_neg hget, htake, if_neg hcap]
        obtain ⟨ihh, ihi, ihl⟩ := ih (pushSnapshot st v)
          (by rw [hH]; simp)
          (by rw [hH, hI]; simp; omega)
          (by rw [hH]; simp at hcap ⊢; omega)
          hf
        refine ⟨?_, ihi, ?_⟩
        · rw [ihh, hH]
          have e1 : (st.history ++ [v]) ++ vs = st.history ++ v :: vs := by simp
          have e2 : (st.history ++ [v]).length + vs.length - 100 =
              st.history.length + (v :: vs).length - 100 := by
            simp
            omega
          rw [e1, e2]
        · rw [ihl, hH]
          simp
          omega

/-- C1: Round-trip law of the tokenizer: for every input string and every
user list, concatenating the contents of the returned segments in order,
with a `#` marker reinserted before each hashtag segment's content and an
`@` marker reinserted before each mention segment's content, yields exactly
the input string. -/
theorem C1_tokenizer_round_trip (s : Str) (U : List User) :
    reconstruct (parseTextWithTagsAndMentions s U) = s :=
  reconstruct_parse s U

/-- C2: Validity flags of tokenized segments: every hashtag segment has
`isValid = true` regardless of the user list, and a mention segment has
`isValid = true` iff some user's username equals the captured name
case-insensitively; a mention whose name is unknown is still emitted as a
`mention` segment (witnessed by the spec's own `@bob` example). -/
theorem C2_validity_flags :
    (∀ (s : Str) (U : List User), ∀ seg ∈ parseTextWithTagsAndMentions s U,
      (seg.type = SegType.hashtag → seg.isValid = some true) ∧
      (seg.type = SegType.mention →
        (seg.isValid = some true ↔
          ∃ u ∈ U, toLowerStr u.username = toLowerStr seg.content))) ∧
    parseTextWithTagsAndMentions "ping @alice".data [⟨"u1".data, "alice".data, none⟩] =
      [⟨SegType.text, "ping ".data, none⟩, ⟨SegType.mention, "alice".data, some true⟩] ∧
    parseTextWithTagsAndMentions "ping @bob".data [⟨"u1".data, "alice".data, none⟩] =
      [⟨SegType.text, "ping ".data, none⟩, ⟨SegType.mention, "bob".data, some false⟩] := by
  refine ⟨?_, by decide, by decide⟩
  intro s U seg hseg
  obtain ⟨-, hh, hm, hne, -⟩ := parseAux_segs U s.length true [] s seg hseg
  refine ⟨hh, fun hty => ?_⟩
  rw [hm hty, Option.some.injEq]
  exact userExists_iff hne

/-- Witness for C2 at concrete inputs. -/
theorem C2_validity_flags_witness :
    (⟨SegType.hashtag, "a".data, some true⟩ : ParsedSegment).isValid = some true :=
  ((C2_validity_flags.1 "x #a".data [] ⟨SegType.hashtag, "a".data, some true⟩
    (by decide)).1) rfl

/-- C3: Word-boundary rule: every hashtag/mention segment arises from a
marker occurrence at the start of the string or immediately after a
whitespace character, and `"x@y"` yields no mention segment for any user
list. -/
theorem C3_word_boundary :
    (∀ (s : Str) (U : List User), ∀ seg ∈ parseTextWithTagsAndMentions s U,
      seg.type ≠ SegType.text →
        ∃ pre suf : Str, s = pre ++ markerChar seg.type :: (seg.content ++ suf) ∧
          (pre = [] ∨ ∃ (pre2 : Str) (c : Char), pre = pre2 ++ [c] ∧ isSpaceJS c = true)) ∧
    (∀ U : List User, ∀ seg ∈ parseTextWithTagsAndMentions "x@y".data U,
      seg.type ≠ SegType.mention) := by
  constructor
  · intro s U seg hseg hty
    obtain ⟨pre, suf, heq, hdis⟩ :=
      parseAux_boundary U s.length true [] s (fun _ => rfl) seg hseg hty
    refine ⟨pre, suf, by simpa using heq, ?_⟩
    rcases hdis with ⟨hnil, -⟩ | ⟨pre2, c, hpre, hsp⟩
    · exact Or.inl hnil
    · exact Or.inr ⟨pre2, c, hpre, hsp⟩
  · intro U seg hseg
    have hx : parseTextWithTagsAndMentions "x@y".data U =
        [⟨SegType.text, "x@y".data, none⟩] := rfl
    rw [hx] at hseg
    have := List.mem_singleton.mp hseg
    subst this
    simp

/-- Witness for C3 at a concrete input. -/
theorem C3_word_boundary_witness :
    ∃ pre suf : Str, "#a".data = pre ++ markerChar SegType.hashtag :: ("a".data ++ suf) ∧
      (pre = [] ∨ ∃ (pre2 : Str) (c : Char), pre = pre2 ++ [c] ∧ isSpaceJS c = true) :=
  C3_word_boundary.1 "#a".data [] ⟨SegType.hashtag, "a".data, some true⟩
    (by decide) (by decide)

/-- C7 counterexample: the empty string contains no hashtag or mention
token, yet the tokenizer returns the empty segment list — not a
one-element list with a `text` segment. -/
theorem C7_counterexample :
    hasTokenAux true [] = false ∧
    parseTextWithTagsAndMentions [] [] = [] ∧
    (parseTextWithTagsAndMentions [] []).length ≠ 1 := by
  refine ⟨rfl, rfl, by decide⟩

/-- C7 (amended): for every NON-EMPTY input string containing no hashtag or
mention token and every user list, the tokenizer returns exactly one
segment, of kind `text`, whose content is the input (the empty string
instead yields the empty list). -/
theorem C7_plain_text_identity (s : Str) (U : List User)
    (hne : s ≠ []) (hnt : hasTokenAux true s = false) :
    parseTextWithTagsAndMentions s U = [⟨SegType.text, s, none⟩] := by
  rw [parseTextWithTagsAndMentions, parseAux_noToken U s.length true [] s hnt]
  simp [emitText, hne]

/-- Witness for C7 (amended) at a concrete input. -/
theorem C7_plain_text_identity_witness :
    parseTextWithTagsAndMentions "hello world".data [] =
      [⟨SegType.text, "hello world".data, none⟩] :=
  C7_plain_text_identity "hello world".data [] (by decide) (by decide)

/-- C10: every emitted segment has non-empty content; `text` contents are
(non-empty) contiguous substrings of the input; hashtag/mention contents
contain a word character; the empty input yields the empty list. -/
theorem C10_segment_invariants :
    (∀ (s : Str) (U : List User), ∀ seg ∈ parseTextWithTagsAndMentions s U,
      seg.content ≠ [] ∧
      (seg.type = SegType.text → ∃ pre suf : Str, pre ++ (seg.content ++ suf) = s) ∧
      (seg.type ≠ SegType.text → ∃ c ∈ seg.content, isWordChar c = true)) ∧
    (∀ U : List User, parseTextWithTagsAndMentions [] U = []) := by
  constructor
  · intro s U seg hseg
    obtain ⟨-, -, -, hne, hw⟩ := parseAux_segs U s.length true [] s seg hseg
    refine ⟨hne, fun _ => ?_, fun hty => ?_⟩
    · obtain ⟨pre, suf, h⟩ := mem_reconstruct _ seg hseg
      exact ⟨pre, suf, by rw [h, reconstruct_parse]⟩
    · cases hc : seg.content with
      | nil => exact absurd hc hne
      | cons c l =>
        exact ⟨c, List.mem_cons_self c l,
          hw hty c (by rw [hc]; exact List.mem_cons_self c l)⟩
  · intro U
    rfl

/-- Witness for C10 at a concrete input. -/
theorem C10_segment_invariants_witness :
    (⟨SegType.text, "x ".data, none⟩ : ParsedSegment).content ≠ [] ∧
    parseTextWithTagsAndMentions [] [] = [] :=
  ⟨((C10_segment_invariants.1 "x #a".data [] ⟨SegType.text, "x ".data, none⟩
      (by decide)).1),
    C10_segment_invariants.2 []⟩

theorem all_replicate {α : Type} (p : α → Bool) (k : Nat) (c : α) (h : p c = true) :
    (List.replicate k c).all p = true := by
  induction k with
  | zero => rfl
  | succ k ih => simp [List.replicate_succ, h, ih]

theorem head_append_of_head {α : Type} {x : List α} {d : α} (rest : List α)
    (h : x.head? = some d) : (x ++ rest).head? = some d := by
  cases x with
  | nil => simp at h
  | cons a l => simpa using h

/-- The `/^(#+)\s*/` match on a line slice made of `n ≥ 1` hashes, `m`
spaces and then text starting with neither a hash nor a space. -/
theorem headingMatch_run (n m : Nat) (u : Str) (hn : 1 ≤ n)
    (hnh : ∀ c : Char, u.head? = some c → c ≠ '#')
    (hns : ∀ c : Char, u.head? = some c → isSpaceJS c = false) :
    headingMatch (List.replicate n '#' ++ (List.replicate m ' ' ++ u)) =
      some (n, n + m) := by
  have htw1 : (List.replicate n '#' ++ (List.replicate m ' ' ++ u)).takeWhile
      (fun c => c == '#') = List.replicate n '#' := by
    apply takeWhile_append_stop
    · exact all_replicate _ n '#' (by decide)
    · intro d hd
      cases m with
      | zero =>
        simp only [List.replicate, List.nil_append] at hd
        have := hnh d hd
        simpa using this
      | succ m2 =>
        rw [List.replicate_succ] at hd
        simp at hd
        subst hd
        decide
  have htw3 : (List.replicate m ' ' ++ u).takeWhile isSpaceJS = List.replicate m ' ' := by
    apply takeWhile_append_stop
    · exact all_replicate _ m ' ' (by decide)
    · exact hns
  rw [headingMatch, htw1, if_neg (by simp; omega), List.drop_left, htw3]
  simp

/-- Heading invocation on a buffer whose current line starts with `n ≥ 1`
hashes followed by `m` spaces, the cursor sitting right after them plus
newline-free text `t`: the regex captures exactly the `n` hashes and the
`m` spaces. -/
theorem handleHeading_hash_line (pre t rest : Str) (n m : Nat) (endPos : Nat)
    (hpre : pre = [] ∨ ∃ p : Str, pre = p ++ ['\n'])
    (ht : t.all (fun c => c != '\n') = true)
    (hnh : ∀ c : Char, (t ++ rest).head? = some c → c ≠ '#')
    (hns : ∀ c : Char, (t ++ rest).head? = some c → isSpaceJS c = false)
    (hn : 1 ≤ n) :
    handleHeading
        (pre ++ List.replicate n '#' ++ List.replicate m ' ' ++ t ++ rest)
        (pre.length + n + m + t.length) endPos =
      headingApply
        (pre ++ List.replicate n '#' ++ List.replicate m ' ' ++ t ++ rest)
        (pre.length + n + m + t.length) endPos pre.length (some (n, n + m)) := by
  have hbc : (pre ++ List.replicate n '#' ++ List.replicate m ' ' ++ t ++ rest).take
      (pre.length + n + m + t.length) =
      pre ++ List.replicate n '#' ++ List.replicate m ' ' ++ t :=
    List.take_left' (by simp only [List.length_append, List.length_replicate] <;> omega)
  have hassoc : pre ++ List.replicate n '#' ++ List.replicate m ' ' ++ t =
      pre ++ (List.replicate n '#' ++ (List.replicate m ' ' ++ t)) := by simp
  have hls : jsLineStart (pre ++ List.replicate n '#' ++ List.replicate m ' ' ++ t) =
      pre.length := by
    rw [hassoc]
    apply jsLineStart_append pre _ hpre
    rw [List.all_append, List.all_append, all_replicate _ n '#' (by decide),
      all_replicate _ m ' ' (by decide), ht]
    rfl
  have hlbs : (pre ++ List.replicate n '#' ++ List.replicate m ' ' ++ t).drop pre.length =
      List.replicate n '#' ++ (List.replicate m ' ' ++ t) := by
    rw [hassoc]
    exact List.drop_left' rfl
  have hmrun : headingMatch (List.replicate n '#' ++ (List.replicate m ' ' ++ t)) =
      some (n, n + m) :=
    headingMatch_run n m t hn
      (fun c hc => hnh c (head_append_of_head rest hc))
      (fun c hc => hns c (head_append_of_head rest hc))
  rw [handleHeading, hbc, hls, hlbs, hmrun]

/-- C5: Heading toolbar cycle: with the cursor after an existing hash prefix
of length `n` (its trailing spaces included), `1 ≤ n ≤ 5` rewrites the
prefix to `n+1` hashes and a single space; `n = 6` removes the entire
prefix, trailing spaces included; with no leading hashes and an empty
selection, the `# Heading` level-1 template is inserted at the line start;
and 7 consecutive invocations from a blank buffer produce hash-prefix
lengths 1, 2, 3, 4, 5, 6, 0, ending on plain `Heading`. -/
theorem C5_heading_cycle :
    (∀ (pre t rest : Str) (n m : Nat) (endPos : Nat),
      (pre = [] ∨ ∃ p : Str, pre = p ++ ['\n']) →
      t.all (fun c => c != '\n') = true →
      (∀ c : Char, (t ++ rest).head? = some c → c ≠ '#') →
      (∀ c : Char, (t ++ rest).head? = some c → isSpaceJS c = false) →
      1 ≤ n → n ≤ 5 →
      (handleHeading
          (pre ++ List.replicate n '#' ++ List.replicate m ' ' ++ t ++ rest)
          (pre.length + n + m + t.length) endPos).1 =
        pre ++ List.replicate (n + 1) '#' ++ ' ' :: (t ++ rest)) ∧
    (∀ (pre t rest : Str) (m : Nat) (endPos : Nat),
      (pre = [] ∨ ∃ p : Str, pre = p ++ ['\n']) →
      t.all (fun c => c != '\n') = true →
      (∀ c : Char, (t ++ rest).head? = some c → c ≠ '#') →
      (∀ c : Char, (t ++ rest).head? = some c → isSpaceJS c = false) →
      (handleHeading
          (pre ++ List.replicate 6 '#' ++ List.replicate m ' ' ++ t ++ rest)
          (pre.length + 6 + m + t.length) endPos).1 =
        pre ++ (t ++ rest)) ∧
    (∀ (pre t rest : Str),
      (pre = [] ∨ ∃ p : Str, pre = p ++ ['\n']) →
      t.all (fun c => c != '\n') = true →
      (∀ c : Char, (t ++ rest).head? = some c → c ≠ '#') →
      (handleHeading (pre ++ t ++ rest) (pre.length + t.length) (pre.length + t.length)).1 =
        pre ++ ('#' :: ' ' :: "Heading".data) ++ (t ++ rest)) ∧
    ((List.range 7).map (fun k => hashRunLen (headingCycle (k + 1)).1) =
        [1, 2, 3, 4, 5, 6, 0] ∧
      (headingCycle 7).1 = "Heading".data) := by
  refine ⟨?_, ?_, ?_, by decide, by decide⟩
  · intro pre t rest n m endPos hpre ht hnh hns hn1 hn5
    rw [handleHeading_hash_line pre t rest n m endPos hpre ht hnh hns hn1]
    rw [headingApply, if_pos (by omega)]
    have hv : pre ++ List.replicate n '#' ++ List.replicate m ' ' ++ t ++ rest =
        pre ++ (List.replicate n '#' ++ (List.replicate m ' ' ++ (t ++ rest))) := by simp
    have htakePre : (pre ++ List.replicate n '#' ++ List.replicate m ' ' ++ t ++ rest).take
        pre.length = pre := by
      rw [hv]
      exact List.take_left' rfl
    have hv2 : pre ++ List.replicate n '#' ++ List.replicate m ' ' ++ t ++ rest =
        (pre ++ List.replicate n '#' ++ List.replicate m ' ') ++ (t ++ rest) := by simp
    have hdropTR : (pre ++ List.replicate n '#' ++ List.replicate m ' ' ++ t ++ rest).drop
        (pre.length + (n + m)) = t ++ rest := by
      rw [hv2]
      exact List.drop_left' (by simp only [List.length_append, List.length_replicate] <;> omega)
    rw [htakePre, hdropTR]
    simp
  · intro pre t rest m endPos hpre ht hnh hns
    rw [handleHeading_hash_line pre t rest 6 m endPos hpre ht hnh hns (by omega)]
    rw [headingApply, if_neg (by omega)]
    have hv : pre ++ List.replicate 6 '#' ++ List.replicate m ' ' ++ t ++ rest =
        pre ++ (List.replicate 6 '#' ++ (List.replicate m ' ' ++ (t ++ rest))) := by simp
    have htakePre : (pre ++ List.replicate 6 '#' ++ List.replicate m ' ' ++ t ++ rest).take
        pre.length = pre := by
      rw [hv]
      exact List.take_left' rfl
    have hv2 : pre ++ List.replicate 6 '#' ++ List.replicate m ' ' ++ t ++ rest =
        (pre ++ List.replicate 6 '#' ++ List.replicate m ' ') ++ (t ++ rest) := by simp
    have hdropTR : (pre ++ List.replicate 6 '#' ++ List.replicate m ' ' ++ t ++ rest).drop
        (pre.length + (6 + m)) = t ++ rest := by
      rw [hv2]
      exact List.drop_left' (by simp only [List.length_append, List.length_replicate] <;> omega)
    rw [htakePre, hdropTR]
  · intro pre t rest hpre ht hnh
    have hbc : (pre ++ t ++ rest).take (pre.length + t.length) = pre ++ t :=
      List.take_left' (by simp)
    have hls : jsLineStart (pre ++ t) = pre.length := jsLineStart_append pre t hpre ht
    have hlbs : (pre ++ t).drop pre.length = t := List.drop_left' rfl
    have hmnone : headingMatch t = none := by
      cases t with
      | nil => rfl
      | cons d tl =>
        have hd : d ≠ '#' := hnh d (by simp)
        rw [headingMatch, if_pos]
        rw [List.takeWhile_cons_of_neg (by simpa using hd)]
        rfl
    have hsel : (pre ++ t).drop (pre.length + t.length) = [] := by
      have hlen : (pre ++ t).length = pre.length + t.length := by simp
      rw [← hlen]
      exact List.drop_length _
    rw [handleHeading, hbc, hls, hlbs, hmnone]
    rw [headingApply, if_pos (by rw [hbc, hsel]; rfl)]
    have hv : pre ++ t ++ rest = pre ++ (t ++ rest) := by simp
    have htakePre : (pre ++ t ++ rest).take pre.length = pre := by
      rw [hv]
      exact List.take_left' rfl
    have hdropTR : (pre ++ t ++ rest).drop pre.length = t ++ rest := by
      rw [hv]
      exact List.drop_left' rfl
    rw [htakePre, hdropTR]

/-- Witness for C5 on concrete lines. -/
theorem C5_heading_cycle_witness :
    (handleHeading "## abc".data 3 3).1 = "### abc".data ∧
    (handleHeading "###### abc".data 7 7).1 = "abc".data ∧
    (handleHeading "abc".data 3 3).1 = "# Headingabc".data := by
  refine ⟨?_, ?_, ?_⟩
  · have := C5_heading_cycle.1 [] "abc".data [] 2 1 3 (Or.inl rfl) (by decide)
      (by decide) (by decide) (by decide) (by decide)
    simpa using this
  · have := C5_heading_cycle.2.1 [] "abc".data [] 1 7 (Or.inl rfl) (by decide)
      (by decide) (by decide)
    simpa using this
  · have := C5_heading_cycle.2.2.1 [] "abc".data [] (Or.inl rfl) (by decide) (by decide)
    simpa using this

/-- C8: Undo/redo boundary no-ops: at index 0, `undo` leaves the state
unchanged and does not invoke `onChange`; at the last index, `redo`
likewise; away from the boundary, `undo` decrements the index by one and
`redo` increments it by one, each invoking `onChange` with the snapshot at
the new index. -/
theorem C8_undo_redo_boundaries (st : EditorHistory) :
    (st.historyIndex = 0 → undo st = (st, none)) ∧
    (st.historyIndex = st.history.length - 1 → redo st = (st, none)) ∧
    (0 < st.historyIndex →
      undo st = ({ history := st.history, historyIndex := st.historyIndex - 1 },
        some (st.history.getD (st.historyIndex - 1) []))) ∧
    (st.historyIndex < st.history.length - 1 →
      redo st = ({ history := st.history, historyIndex := st.historyIndex + 1 },
        some (st.history.getD (st.historyIndex + 1) []))) := by
  refine ⟨fun h0 => ?_, fun hend => ?_, fun hpos => ?_, fun hlt => ?_⟩
  · rw [undo, if_neg (by omega)]
  · rw [redo, if_neg (by omega)]
  · rw [undo, if_pos hpos]
  · rw [redo, if_pos hlt]

/-- Witness for C8 on a concrete two-entry history. -/
theorem C8_undo_redo_boundaries_witness :
    undo ⟨["a".data, "b".data], 0⟩ = (⟨["a".data, "b".data], 0⟩, none) ∧
    redo ⟨["a".data, "b".data], 1⟩ = (⟨["a".data, "b".data], 1⟩, none) ∧
    undo ⟨["a".data, "b".data], 1⟩ = (⟨["a".data, "b".data], 0⟩, some "a".data) ∧
    redo ⟨["a".data, "b".data], 0⟩ = (⟨["a".data, "b".data], 1⟩, some "b".data) :=
  ⟨(C8_undo_redo_boundaries _).1 rfl,
   (C8_undo_redo_boundaries _).2.1 (by decide),
   (C8_undo_redo_boundaries _).2.2.1 (by decide),
   (C8_undo_redo_boundaries _).2.2.2 (by decide)⟩

/-- C4: History cap and eviction: from the initial one-entry state, 101
consecutive debounced appends (each with a buffer differing from the entry
at the current index) leave exactly 100 entries — the initial entry and the
first pushed value having been evicted from the front — and the length
never exceeds 100 after any prefix of the appends. -/
theorem C4_history_cap (v0 : Str) (vs : List Str) (hlen : vs.length = 101)
    (hf : freshAlong (initialHistory v0) vs = true) :
    (pushList (initialHistory v0) vs).history.length = 100 ∧
    (pushList (initialHistory v0) vs).history = vs.drop 1 ∧
    (∀ n : Nat, (pushList (initialHistory v0) (vs.take n)).history.length ≤ 100) := by
  have hinv1 : (initialHistory v0).history ≠ [] := by simp [initialHistory]
  have hinv2 : (initialHistory v0).historyIndex + 1 = (initialHistory v0).history.length := by
    simp [initialHistory]
  have hinv3 : (initialHistory v0).history.length ≤ 100 := by simp [initialHistory]
  obtain ⟨hh, -, hl⟩ := pushList_window vs (initialHistory v0) hinv1 hinv2 hinv3 hf
  refine ⟨?_, ?_, ?_⟩
  · rw [hl]
    simp [initialHistory, hlen]
  · rw [hh]
    have h2 : (initialHistory v0).history.length + vs.length - 100 = 2 := by
      simp [initialHistory, hlen]
    rw [h2]
    rfl
  · intro n
    obtain ⟨-, -, hl2⟩ := pushList_window (vs.take n) (initialHistory v0) hinv1 hinv2 hinv3
      (freshAlong_take vs (initialHistory v0) n hf)
    rw [hl2]
    exact Nat.min_le_right _ _

set_option maxRecDepth 4000 in
/-- Witness for C4: 101 concrete alternating snapshots. -/
theorem C4_history_cap_witness :
    (pushList (initialHistory [])
        ((List.range 101).map fun k => if k % 2 == 0 then ['a'] else [])).history.length
      = 100 :=
  (C4_history_cap [] _ (by decide) (by decide)).1

/-- C9 counterexample: with viewport width 100 and anchor left 450, the
clamped left coordinate is 10, which exceeds `100 - 300 - 10 = -210`: the
claimed bound fails for viewports narrower than 320, where the left-edge
clamp to the 10px padding takes precedence. -/
theorem C9_counterexample :
    (getAdjustedPosition 0 450 100 500).2 = 10 ∧
    ¬ ((getAdjustedPosition 0 450 100 500).2 ≤ 100 - 300 - 10) :=
  ⟨by decide, by decide⟩

/-- C9 (amended): for every anchor position and every viewport of width at
least `dropdownWidth + 2·padding = 320`, the adjusted left coordinate never
exceeds `W - dropdownWidth - padding = W - 310`; in particular with
viewport width 500 and anchor left 450 it is exactly 190. -/
theorem C9_horizontal_clamp :
    (∀ top left innerWidth innerHeight : Int, 320 ≤ innerWidth →
      (getAdjustedPosition top left innerWidth innerHeight).2 ≤ innerWidth - 300 - 10) ∧
    (∀ top innerHeight : Int,
      (getAdjustedPosition top 450 500 innerHeight).2 = 190) := by
  constructor
  · intro top left W H hw
    by_cases h1 : W - 10 < left + 300
    · by_cases h2 : W - 300 - 10 < 10
      · simp [getAdjustedPosition, h1, h2] <;> omega
      · simp [getAdjustedPosition, h1, h2] <;> omega
    · by_cases h2 : left < 10
      · simp [getAdjustedPosition, h1, h2] <;> omega
      · simp [getAdjustedPosition, h1, h2] <;> omega
  · intro top H
    norm_num [getAdjustedPosition]

/-- Witness for C9 at a concrete viewport. -/
theorem C9_horizontal_clamp_witness :
    (getAdjustedPosition 0 450 500 500).2 ≤ 500 - 300 - 10 ∧
    (getAdjustedPosition 0 450 500 500).2 = 190 :=
  ⟨C9_horizontal_clamp.1 0 450 500 500 (by decide), C9_horizontal_clamp.2 0 500⟩

/-- C6 counterexample: a table-cell (`td`) string child containing a
hashtag is emitted verbatim by the `td` component rather than being passed
through the segment tokenizer, although the tokenizer would produce a
hashtag segment for it. -/
theorem C6_counterexample :
    (parseTextWithTagsAndMentions "see #tag".data []).any
        (fun seg => seg.type == SegType.hashtag) = true ∧
    renderStringChild ElemKind.td "see #tag".data [] = [RNode.raw "see #tag".data] ∧
    renderStringChild ElemKind.td "see #tag".data [] ≠
      textRenderer "see #tag".data [] :=
  ⟨by decide, rfl, by decide⟩

/-- C6 (amended): string children of paragraphs, headings 1-6, list items,
blockquotes and emphasis/strong/strikethrough content are passed through
the segment tokenizer before being emitted; `th`/`td` table-cell children
are emitted verbatim, not tokenized. -/
theorem C6_text_leaf_coverage (k : ElemKind) (child : Str) (U : List User)
    (hth : k ≠ ElemKind.th) (htd : k ≠ ElemKind.td) :
    renderStringChild k child U =
      (parseTextWithTagsAndMentions child U).map renderSegment := by
  cases k <;> first | rfl | exact absurd rfl hth | exact absurd rfl htd

/-- Witness for C6 (amended) on a heading child. -/
theorem C6_text_leaf_coverage_witness :
    renderStringChild ElemKind.h1 "see #tag".data [] =
      (parseTextWithTagsAndMentions "see #tag".data []).map renderSegment :=
  C6_text_leaf_coverage ElemKind.h1 "see #tag".data [] (by decide) (by decide)

example :
    parseTextWithTagsAndMentions "x@y".data [] =
      [⟨SegType.text, "x@y".data, none⟩] := by
  decide

example :
    parseTextWithTagsAndMentions "ping @bob".data [⟨"u1".data, "alice".data, none⟩] =
      [⟨SegType.text, "ping ".data, none⟩, ⟨SegType.mention, "bob".data, some false⟩] := by
  decide

example :
    parseTextWithTagsAndMentions "ping @alice".data [⟨"u1".data, "ALICE".data, none⟩] =
      [⟨SegType.text, "ping ".data, none⟩, ⟨SegType.mention, "alice".data, some true⟩] := by
  decide

end QuoraClone
